import Mathlib

/-
Verification of the srcd repository's discovery database
(src/p2p/discover5/database.go) and header chain manager
(src/unnamed/part_001, package blockchain).

Machine integers: Go uint64 arithmetic is modelled on Nat with explicit
reduction modulo 2^64 where overflow can occur.  Byte strings (leveldb keys,
node identities) are modelled as List Nat, one element per byte.
-/

/-! ## Generic association-list helpers

leveldb and the in-memory LRU caches are key-value stores.  They are modelled
as association lists with unique keys; `alistFind` models a point lookup
(`Get`), `alistErase` models deletion of a key (`Delete`). -/

def alistFind {α β : Type} [DecidableEq α] : List (α × β) → α → Option β
  | [], _ => none
  | (k, v) :: rest, key => if k = key then some v else alistFind rest key

def alistErase {α β : Type} [DecidableEq α] : List (α × β) → α → List (α × β)
  | [], _ => []
  | (k, v) :: rest, key =>
    if k = key then alistErase rest key else (k, v) :: alistErase rest key

/-- `lru.Cache.Add`: inserts the pair at the front, replacing any existing
entry for the key.  The source caches are bounded (512 and 2048 entries) with
LRU eviction; eviction is not modelled, which only means the model's cache can
hold at least as much as the source's (eviction removes cache entries, making
later reads fall through to the authoritative store). -/
def cacheAdd {β : Type} (c : List (Nat × β)) (k : Nat) (v : β) : List (Nat × β) :=
  (k, v) :: alistErase c k

theorem alistFind_nil {α β : Type} [DecidableEq α] (key : α) :
    alistFind ([] : List (α × β)) key = none := rfl

theorem alistFind_cons {α β : Type} [DecidableEq α] (k : α) (v : β) (rest : List (α × β)) (key : α) :
    alistFind ((k, v) :: rest) key = if k = key then some v else alistFind rest key := rfl

theorem alistErase_cons {α β : Type} [DecidableEq α] (k : α) (v : β) (rest : List (α × β)) (key : α) :
    alistErase ((k, v) :: rest) key =
      if k = key then alistErase rest key else (k, v) :: alistErase rest key := rfl

theorem alistErase_append {α β : Type} [DecidableEq α] (l₁ l₂ : List (α × β)) (key : α) :
    alistErase (l₁ ++ l₂) key = alistErase l₁ key ++ alistErase l₂ key := by
  induction l₁ with
  | nil => rfl
  | cons p rest ih =>
    obtain ⟨k, v⟩ := p
    by_cases h : k = key <;> simp [alistErase, h, ih]

theorem alistErase_of_notMem {α β : Type} [DecidableEq α] (l : List (α × β)) (key : α)
    (h : ∀ p ∈ l, p.1 ≠ key) : alistErase l key = l := by
  induction l with
  | nil => rfl
  | cons p rest ih =>
    obtain ⟨k, v⟩ := p
    have hk : k ≠ key := h (k, v) (List.mem_cons_self _ _)
    simp [alistErase, hk]
    exact ih fun q hq => h q (List.mem_cons_of_mem _ hq)

theorem alistFind_of_notMem {α β : Type} [DecidableEq α] (l : List (α × β)) (key : α)
    (h : ∀ p ∈ l, p.1 ≠ key) : alistFind l key = none := by
  induction l with
  | nil => rfl
  | cons p rest ih =>
    obtain ⟨k, v⟩ := p
    have hk : k ≠ key := h (k, v) (List.mem_cons_self _ _)
    simp [alistFind, hk]
    exact ih fun q hq => h q (List.mem_cons_of_mem _ hq)

/-! ## Discovery database (src/p2p/discover5/database.go)

Node identities (`NodeID`, a fixed 64-byte array) are modelled as `List Nat`
of length 64; leveldb keys as `List Nat`. -/

/-- Byte string of the Go constant `nodeDBItemPrefix = []byte("n:")`
(database.go:27). -/
def nodeDBItemPref : List Nat := [110, 58]

/-- Byte string of the Go constant `nodeDBDiscoverRoot = ":discover"`
(database.go:30). -/
def nodeDBDiscoverRoot : List Nat := [58, 100, 105, 115, 99, 111, 118, 101, 114]

/-- `nodeDBNilNodeID = NodeID{}` (database.go:23): the all-zero identity. -/
def nodeDBNilNodeID : List Nat := List.replicate 64 0

/-- `makeKey` exactly as written in database.go:107-111.  The source body is

    if bytes.Equal(id[:], nodeDBNilNodeID[:]) { return []byte(field) }

and then falls off the end of the function: the branch for a non-zero
identity has no return statement at all (the callers and `splitKey` expect
`append(nodeDBItemPrefix, append(id[:], field...)...)` there).  The missing
branch is modelled as `none`. -/
def makeKey (id : List Nat) (field : List Nat) : Option (List Nat) :=
  if id = nodeDBNilNodeID then some field else none

/-- Modelled from the spec: the encoding `makeKey` is documented to produce for
a non-zero identity (spec section 4.2: "a byte key with a fixed
identity-length prefix", zero identity maps to the bare field name); this is
the branch missing from the source body of `makeKey`. -/
def makeKeyIntended (id : List Nat) (field : List Nat) : List Nat :=
  if id = nodeDBNilNodeID then field else nodeDBItemPref ++ id ++ field

/-- `splitKey` (database.go:113-122): if the key does not carry the item
prefix it belongs to the nil identity; otherwise the identity is the first 64
bytes after the prefix (copied into a zero-initialised 64-byte array) and the
field is the remainder. -/
def splitKey (key : List Nat) : List Nat × List Nat :=
  if nodeDBItemPref.isPrefixOf key then
    let item := key.drop nodeDBItemPref.length
    (item.take 64 ++ List.replicate (64 - item.length) 0, item.drop 64)
  else (nodeDBNilNodeID, key)

theorem splitKey_item (id rest : List Nat) (hlen : id.length = 64) :
    splitKey (nodeDBItemPref ++ id ++ rest) = (id, rest) := by
  have hpre : nodeDBItemPref.isPrefixOf (nodeDBItemPref ++ id ++ rest) = true := by
    simp [nodeDBItemPref, List.isPrefixOf, List.cons_append]
  have hdrop : (nodeDBItemPref ++ id ++ rest).drop nodeDBItemPref.length = id ++ rest := by
    rw [List.append_assoc, List.drop_left]
  have htake : (id ++ rest).take 64 = id := by
    rw [← hlen, List.take_left]
  have hdrop64 : (id ++ rest).drop 64 = rest := by
    rw [← hlen, List.drop_left]
  have hzero : 64 - (id ++ rest).length = 0 := by
    simp [List.length_append, hlen]
  simp only [splitKey, hpre, if_true, hdrop, htake, hdrop64, hzero,
    List.replicate_zero, List.append_nil]

/-! ### The expiry sweep (C1)

`expireNodes` (database.go:200-220) iterates every key in the store, splits it
into (identity, field), skips keys whose field is not `:discover`, and then:

    if !bytes.Equal(id[:], db.self[:]) {
        if seen := db.lastPong(id); seen.After(threshold) { continue }
    }
    db.deleteNode(id)

so a non-self identity is spared when its last pong is fresh, while the self
identity falls straight through to `deleteNode`.

`expireDeletions` returns the list of identities passed to `deleteNode` during
one sweep over the given keys.  The last-pong freshness test
`seen.After(threshold)` is abstracted by the oracle `fresh` (its
implementation reads the store through `makeKey`, whose non-zero branch is
missing from the source, see `makeKey` above). -/
def expireDeletions (self : List Nat) (fresh : List Nat → Bool)
    (keys : List (List Nat)) : List (List Nat) :=
  keys.filterMap (fun key =>
    let p := splitKey key
    if p.2 ≠ nodeDBDiscoverRoot then none
    else if p.1 ≠ self ∧ fresh p.1 = true then none
    else some p.1)

set_option maxRecDepth 10000 in
/-- C1 (counterexample): the claim "if id equals the database's own self
identity then deleteNode(id) is never invoked during the sweep" is false: in a
store containing exactly self's node-record key, with self's last pong fresh,
the sweep invokes deleteNode on self. -/
theorem C1_counterexample :
    expireDeletions (List.replicate 64 1) (fun _ => true)
        [nodeDBItemPref ++ List.replicate 64 1 ++ nodeDBDiscoverRoot]
      = [List.replicate 64 1] := by
  decide

/-- C1 (amended): whenever a sweep encounters self's node-record key,
`deleteNode(self)` IS invoked, regardless of the freshness oracle (i.e. of how
recent self's last pong is): the guard `!bytes.Equal(id, db.self)` skips the
staleness test for self and falls through to the deletion. -/
theorem C1_sweep_deletes_self (self : List Nat) (hlen : self.length = 64)
    (fresh : List Nat → Bool) (keys : List (List Nat))
    (hmem : nodeDBItemPref ++ self ++ nodeDBDiscoverRoot ∈ keys) :
    self ∈ expireDeletions self fresh keys := by
  rw [expireDeletions, List.mem_filterMap]
  refine ⟨nodeDBItemPref ++ self ++ nodeDBDiscoverRoot, hmem, ?_⟩
  rw [splitKey_item self nodeDBDiscoverRoot hlen]
  simp

theorem C1_sweep_deletes_self_witness :
    List.replicate 64 3 ∈ expireDeletions (List.replicate 64 3) (fun _ => true)
      [nodeDBItemPref ++ List.replicate 64 3 ++ nodeDBDiscoverRoot] :=
  C1_sweep_deletes_self (List.replicate 64 3) (by decide) (fun _ => true)
    [nodeDBItemPref ++ List.replicate 64 3 ++ nodeDBDiscoverRoot]
    (List.mem_singleton.mpr rfl)

/-! ### The expirer loop (C2)

`expirer` (database.go:188-199) is

    tick := time.NewTicker(nodeDBCleanupCycle)
    defer tick.Stop()
    for {
        select {
            case <-tick.C:
                if err := db.expireNodes(); err != nil { }
        }
    }

The select has a single case, the cleanup ticker.  `close` (database.go:330)
closes `db.quit` — the channel whose declaration reads "Channel to signal the
expiring thread to stop" (database.go:48) — but the select contains no case
for `db.quit`, so the loop can never observe the close signal. -/

inductive ExpEvent where
  | tick : ExpEvent
  | quit : ExpEvent
deriving DecidableEq

/-- The channel events for which `expirer`'s select has a case: only the
ticker.  There is no `case <-db.quit` in the source. -/
def expirerSelectHandles : ExpEvent → Bool
  | ExpEvent.tick => true
  | ExpEvent.quit => false

/-- Number of `expireNodes` sweeps the expirer loop performs over a trace of
channel events: every ticker fire triggers a sweep and the loop continues; a
quit signal (the channel closed by `close`) matches no select case, so it
neither stops the loop nor prevents later sweeps. -/
def expirerSweeps : List ExpEvent → Nat
  | [] => 0
  | ExpEvent.tick :: rest => expirerSweeps rest + 1
  | ExpEvent.quit :: rest => expirerSweeps rest

/-- C2 (code bug): after `close` fires the quit signal, a subsequent ticker
fire still runs a sweep — the select handles no quit event, contradicting the
claim (and the `quit` field's own documentation) that the expirer observes the
quit signal between cycles and terminates. -/
theorem C2_expirer_ignores_quit :
    expirerSelectHandles ExpEvent.quit = false
      ∧ expirerSweeps [ExpEvent.quit, ExpEvent.tick] = 1 := by
  exact ⟨rfl, rfl⟩

/-! ### Seed sampling (C8)

`querySeeds` (database.go:259-293).  A node record is modelled by its
identity only (the other fields play no role in the sampling logic).  The
composite of the random identity generation, `it.Seek`, and `nextNode` is
modelled by the oracle `seekRes` mapping the attempt number to the node found
(or `none`); the freshness test `now.Sub(db.lastPong(n.ID)) > maxAge` is
abstracted by the oracle `fresh` (as for the sweep, its source implementation
goes through the broken `makeKey`). -/

structure DNode where
  id : List Nat
deriving DecidableEq

/-- The seek loop of `querySeeds`: runs while fewer than `n` nodes are
collected and the attempt budget (`seeks < n*5` in the source, modelled as
remaining fuel) is not exhausted; an attempt is discarded when the seek finds
nothing, finds self, finds a stale record, or finds an already-selected
identity. -/
def qsLoop (self : List Nat) (fresh : List Nat → Bool) (seekRes : Nat → Option DNode)
    (n : Nat) : Nat → Nat → List DNode → List DNode
  | _, 0, nodes => nodes
  | seeks, fuel+1, nodes =>
    if n ≤ nodes.length then nodes
    else
      match seekRes seeks with
      | none => qsLoop self fresh seekRes n (seeks+1) fuel nodes
      | some nd =>
        if nd.id = self then qsLoop self fresh seekRes n (seeks+1) fuel nodes
        else if fresh nd.id = false then qsLoop self fresh seekRes n (seeks+1) fuel nodes
        else if nodes.any (fun m => decide (m.id = nd.id)) then
          qsLoop self fresh seekRes n (seeks+1) fuel nodes
        else qsLoop self fresh seekRes n (seeks+1) fuel (nodes ++ [nd])

def querySeeds (self : List Nat) (fresh : List Nat → Bool)
    (seekRes : Nat → Option DNode) (n : Nat) : List DNode :=
  qsLoop self fresh seekRes n 0 (n * 5) []

theorem qsLoop_inv (self : List Nat) (fresh : List Nat → Bool)
    (seekRes : Nat → Option DNode) (n : Nat) :
    ∀ fuel seeks acc, acc.length ≤ n →
      acc.Pairwise (fun a b => a.id ≠ b.id) →
      (∀ nd ∈ acc, nd.id ≠ self ∧ fresh nd.id = true) →
      (qsLoop self fresh seekRes n seeks fuel acc).length ≤ n
        ∧ (qsLoop self fresh seekRes n seeks fuel acc).Pairwise (fun a b => a.id ≠ b.id)
        ∧ ∀ nd ∈ qsLoop self fresh seekRes n seeks fuel acc,
            nd.id ≠ self ∧ fresh nd.id = true := by
  intro fuel
  induction fuel with
  | zero => intro seeks acc h1 h2 h3; exact ⟨h1, h2, h3⟩
  | succ fuel ih =>
    intro seeks acc h1 h2 h3
    rw [qsLoop]
    by_cases hfull : n ≤ acc.length
    · simp only [hfull, if_true]; exact ⟨h1, h2, h3⟩
    · simp only [hfull, if_false]
      match hseek : seekRes seeks with
      | none => exact ih (seeks+1) acc h1 h2 h3
      | some nd =>
        by_cases hself : nd.id = self
        · simp only [hself, if_true]; exact ih (seeks+1) acc h1 h2 h3
        · simp only [hself, if_false]
          by_cases hfresh : fresh nd.id = false
          · simp only [hfresh, if_true]; exact ih (seeks+1) acc h1 h2 h3
          · simp only [hfresh, if_false]
            by_cases hdup : acc.any (fun m => decide (m.id = nd.id))
            · simp only [hdup, if_true]; exact ih (seeks+1) acc h1 h2 h3
            · simp only [hdup, if_false]
              apply ih (seeks+1)
              · have : acc.length < n := Nat.lt_of_not_le hfull
                simp only [List.length_append, List.length_singleton]
                omega
              · rw [List.pairwise_append]
                refine ⟨h2, List.pairwise_singleton _ _, ?_⟩
                intro a ha b hb
                rw [List.mem_singleton] at hb
                subst hb
                intro heq
                apply hdup
                rw [List.any_eq_true]
                exact ⟨a, ha, by simp [heq]⟩
              · intro m hm
                rw [List.mem_append, List.mem_singleton] at hm
                rcases hm with hm | hm
                · exact h3 m hm
                · subst hm
                  exact ⟨hself, by revert hfresh; cases fresh m.id <;> simp⟩

theorem qsLoop_budget (self : List Nat) (fresh : List Nat → Bool)
    (r r' : Nat → Option DNode) (n : Nat)
    (hr : ∀ i, i < n * 5 → r i = r' i) :
    ∀ fuel seeks acc, seeks + fuel ≤ n * 5 →
      qsLoop self fresh r n seeks fuel acc = qsLoop self fresh r' n seeks fuel acc := by
  intro fuel
  induction fuel with
  | zero => intro seeks acc _; rfl
  | succ fuel ih =>
    intro seeks acc hb
    rw [qsLoop, qsLoop]
    have hlt : seeks < n * 5 := by omega
    rw [← hr seeks hlt]
    by_cases hfull : n ≤ acc.length
    · rw [if_pos hfull, if_pos hfull]
    · rw [if_neg hfull, if_neg hfull]
      have hb' : seeks + 1 + fuel ≤ n * 5 := by omega
      cases r seeks with
      | none => exact ih (seeks+1) acc hb'
      | some nd =>
        dsimp only
        by_cases hself : nd.id = self
        · rw [if_pos hself, if_pos hself]; exact ih (seeks+1) acc hb'
        · rw [if_neg hself, if_neg hself]
          by_cases hfresh : fresh nd.id = false
          · rw [if_pos hfresh, if_pos hfresh]; exact ih (seeks+1) acc hb'
          · rw [if_neg hfresh, if_neg hfresh]
            by_cases hdup : acc.any (fun m => decide (m.id = nd.id)) = true
            · rw [if_pos hdup, if_pos hdup]; exact ih (seeks+1) acc hb'
            · rw [if_neg hdup, if_neg hdup]; exact ih (seeks+1) (acc ++ [nd]) hb'

/-- C8: `querySeeds` returns at most `n` records, pairwise distinct by
identity, none equal to self, all passing the freshness test; and the result
depends only on the first `n*5` seek attempts (the loop performs at most
`n*5` seeks). -/
theorem C8_querySeeds (self : List Nat) (fresh : List Nat → Bool)
    (seekRes : Nat → Option DNode) (n : Nat) :
    (querySeeds self fresh seekRes n).length ≤ n
      ∧ (querySeeds self fresh seekRes n).Pairwise (fun a b => a.id ≠ b.id)
      ∧ (∀ nd ∈ querySeeds self fresh seekRes n, nd.id ≠ self ∧ fresh nd.id = true)
      ∧ ∀ seekRes2 : Nat → Option DNode, (∀ i, i < n * 5 → seekRes i = seekRes2 i) →
          querySeeds self fresh seekRes n = querySeeds self fresh seekRes2 n := by
  obtain ⟨h1, h2, h3⟩ := qsLoop_inv self fresh seekRes n (n * 5) 0 []
    (Nat.zero_le n) (List.Pairwise.nil) (by intro nd h; cases h)
  refine ⟨h1, h2, h3, ?_⟩
  intro r' hr
  exact qsLoop_budget self fresh seekRes r' n hr (n * 5) 0 [] (by omega)

theorem C8_querySeeds_witness :
    (querySeeds [] (fun _ => true) (fun _ => none) 1).length ≤ 1
      ∧ (querySeeds [] (fun _ => true) (fun _ => none) 1).Pairwise (fun a b => a.id ≠ b.id)
      ∧ (∀ nd ∈ querySeeds [] (fun _ => true) (fun _ => none) 1,
          nd.id ≠ [] ∧ (fun _ : List Nat => true) nd.id = true)
      ∧ ∀ seekRes2 : Nat → Option DNode, (∀ i, i < 1 * 5 → none = seekRes2 i) →
          querySeeds [] (fun _ => true) (fun _ => none) 1
            = querySeeds [] (fun _ => true) seekRes2 1 :=
  C8_querySeeds [] (fun _ => true) (fun _ => none) 1

/-- C9 (code bug): `makeKey` as written returns no value for any non-zero
identity (the branch is missing from the source), so
`splitKey (makeKey id field) = (id, field)` fails for every non-zero id; the
intended encoding (fixed prefix ++ identity ++ field, the one `splitKey`
inverts) does satisfy the claim at the same input. -/
theorem C9_makeKey_missing_branch :
    makeKey (List.replicate 64 1) nodeDBDiscoverRoot = none
      ∧ splitKey (makeKeyIntended (List.replicate 64 1) nodeDBDiscoverRoot)
          = (List.replicate 64 1, nodeDBDiscoverRoot) := by
  constructor
  · decide
  · decide

/-! ## Header chain manager (src/unnamed/part_001, package blockchain)

Hashes are modelled as Nat, with 0 playing the role of the zero hash
`common.Hash{}` (used by the store as the "absent" sentinel for the canonical
index and the head pointer).  Header numbers are Go uint64; the one place the
source can underflow (`header.Number.Uint64()-1` at number 0 in
GetBlockHashesFromHash) is modelled with explicit arithmetic modulo 2^64. -/

def u64 : Nat := 18446744073709551616

/-- Go `x - 1` on uint64 (wraps to 2^64-1 at 0), for x already reduced
mod 2^64. -/
def u64sub1 (n : Nat) : Nat := (n + (u64 - 1)) % u64

theorem u64sub1_eq {n : Nat} (h1 : 1 ≤ n) (h2 : n < u64) : u64sub1 n = n - 1 := by
  simp only [u64sub1, u64] at *
  omega

/-- A block header as far as the chain manager reads it: parent hash, height
and own hash.  In the source the hash is derived from the contents
(`hdr.Hash()`); it is modelled as a field, with the theorems below assuming an
injective assignment of hashes to the headers in store. -/
structure Header where
  parentHash : Nat
  number : Nat
  hash : Nat
deriving DecidableEq

/-- Modelled from the spec: the durable header store behind the rawdb accessor
interface (spec section 6) — headers keyed by (hash, number), the
hash-to-number index, the canonical number-to-hash index, and the persisted
head-header hash (0 = absent). -/
structure ChainDB where
  headers : List ((Nat × Nat) × Header)
  numberIndex : List (Nat × Nat)
  canonical : List (Nat × Nat)
  headHash : Nat
deriving DecidableEq

/-- Modelled from the spec: `rawdb.ReadHeader(db, hash, number)`. -/
def readHeader (db : ChainDB) (hsh num : Nat) : Option Header :=
  alistFind db.headers (hsh, num)

/-- Modelled from the spec: `rawdb.ReadHeaderNumber(db, hash)`. -/
def readHeaderNumber (db : ChainDB) (hsh : Nat) : Option Nat :=
  alistFind db.numberIndex hsh

/-- Modelled from the spec: `rawdb.ReadCanonicalHash(db, number)` — returns the
zero hash (0) when no canonical entry exists at that height. -/
def readCanonicalHash (db : ChainDB) (num : Nat) : Nat :=
  match alistFind db.canonical num with
  | some h => h
  | none => 0

/-- One operation accumulated into the rewind batch: a delete-callback
invocation `delFn(batch, hash, num)`, `rawdb.DeleteHeader(batch, hash, num)`,
or `rawdb.DeleteCanonicalHash(batch, num)`. -/
inductive Entry where
  | cbCall : Nat → Nat → Entry
  | delHeader : Nat → Nat → Entry
  | delCanonical : Nat → Entry
deriving DecidableEq

/-- Modelled from the spec: applying one batched operation to the store.
DeleteHeader removes the header record and its hash-to-number entry;
DeleteCanonicalHash removes the canonical entry; a callback invocation is
recorded in the batch but does not itself touch the header store. -/
def applyOp (db : ChainDB) : Entry → ChainDB
  | Entry.cbCall _ _ => db
  | Entry.delHeader hsh num =>
      { db with headers := alistErase db.headers (hsh, num),
                numberIndex := alistErase db.numberIndex hsh }
  | Entry.delCanonical num => { db with canonical := alistErase db.canonical num }

/-- `batch.Write()`: commits the accumulated operations in order. -/
def applyBatch (b : List Entry) (db : ChainDB) : ChainDB := b.foldl applyOp db

/-- The HeaderChain state (part_001:82-96): durable store, fixed genesis
header, atomically read current head (`nil` representable mid-rewind), its
cached hash, and the two LRU caches. -/
structure HeaderChain where
  db : ChainDB
  genesisHeader : Header
  currentHeader : Option Header
  currentHeaderHash : Nat
  headerCache : List (Nat × Header)
  numberCache : List (Nat × Nat)
deriving DecidableEq

/-- `GetHeader` (part_001:150-164): header cache first (keyed by hash only),
then the durable store keyed by (hash, number), populating the cache on a
store hit.  Absence is a normal result. -/
def getHeader (hc : HeaderChain) (hsh num : Nat) : Option Header × HeaderChain :=
  match alistFind hc.headerCache hsh with
  | some h => (some h, hc)
  | none =>
    match readHeader hc.db hsh num with
    | none => (none, hc)
    | some h => (some h, { hc with headerCache := cacheAdd hc.headerCache hsh h })

/-- `GetBlockNumber` (part_001:136-146): number cache first, then the durable
hash-to-number index, populating the cache on a hit. -/
def getBlockNumber (hc : HeaderChain) (hsh : Nat) : Option Nat × HeaderChain :=
  match alistFind hc.numberCache hsh with
  | some n => (some n, hc)
  | none =>
    match readHeaderNumber hc.db hsh with
    | none => (none, hc)
    | some n => (some n, { hc with numberCache := cacheAdd hc.numberCache hsh n })

/-- `GetHeaderByHash` (part_001:167-173). -/
def getHeaderByHash (hc : HeaderChain) (hsh : Nat) : Option Header × HeaderChain :=
  match getBlockNumber hc hsh with
  | (none, hc1) => (none, hc1)
  | (some n, hc1) => getHeader hc1 hsh n

/-- `GetHeaderByNumber` (part_001:176-182): reads the canonical hash straight
from the durable store and treats the zero hash as absent. -/
def getHeaderByNumber (hc : HeaderChain) (num : Nat) : Option Header × HeaderChain :=
  let hsh := readCanonicalHash hc.db num
  if hsh = 0 then (none, hc) else getHeader hc hsh num

/-- The ancestor-collecting loop of `GetBlockHashesFromHash`
(part_001:194-203): for up to `max` iterations, take the parent hash, look the
parent up by (parentHash, number-1); stop without appending when the parent is
absent, append otherwise, and stop after appending when the parent is the
genesis (number 0). -/
def hashWalk : HeaderChain → Header → Nat → List Nat × HeaderChain
  | hc, _, 0 => ([], hc)
  | hc, hdr, fuel+1 =>
    match getHeader hc hdr.parentHash (u64sub1 hdr.number) with
    | (none, hc1) => ([], hc1)
    | (some h, hc1) =>
      if h.number = 0 then ([hdr.parentHash], hc1)
      else
        let r := hashWalk hc1 h fuel
        (hdr.parentHash :: r.1, r.2)

/-- `GetBlockHashesFromHash` (part_001:186-205): resolve the start header by
hash (returning the empty collection when absent) and walk parent pointers. -/
def getBlockHashesFromHash (hc : HeaderChain) (hsh max : Nat) : List Nat × HeaderChain :=
  match getHeaderByHash hc hsh with
  | (none, hc1) => ([], hc1)
  | (some hdr, hc1) => hashWalk hc1 hdr max

/-- `SetCurrentHeader` (part_001:216-221): persist the head-header hash, then
swap the in-memory pointer and its cached hash. -/
def setCurrentHeader (hc : HeaderChain) (head : Header) : HeaderChain :=
  { hc with db := { hc.db with headHash := head.hash },
            currentHeader := some head,
            currentHeaderHash := head.hash }

/-- The rewind loop of `SetHead` (part_001:237-246): while the current header
exists and sits strictly above the target, record the callback invocation (if
a callback was supplied) and the header deletion in the batch, then move the
current-header pointer to the parent via `GetHeader` (which can populate the
header cache; the batched deletions are not yet visible to it).  The source
loops until its condition fails; here the iteration count is bounded by
`fuel`, which `setHead` chooses as (initial height + 1) — on the well-formed
states of the theorems below each step strictly decreases the head number, so
the fuel never runs out and the model agrees with the source. -/
def setHeadWalk (head : Nat) (dp : Bool) :
    Nat → HeaderChain → List Entry → HeaderChain × List Entry
  | 0, hc, batch => (hc, batch)
  | fuel+1, hc, batch =>
    match hc.currentHeader with
    | none => (hc, batch)
    | some hdr =>
      if hdr.number ≤ head then (hc, batch)
      else
        let batch1 := batch ++ (if dp then [Entry.cbCall hdr.hash hdr.number] else [])
          ++ [Entry.delHeader hdr.hash hdr.number]
        let r := getHeader hc hdr.parentHash (u64sub1 hdr.number)
        setHeadWalk head dp fuel { r.2 with currentHeader := r.1 } batch1

/-- The canonical-index rollback of `SetHead` (part_001:248-250):
`for i := height; i > head; i--` accumulating DeleteCanonicalHash(i). -/
def canonicalDeletes : Nat → Nat → List Entry
  | 0, _ => []
  | i+1, head =>
    if head < i+1 then Entry.delCanonical (i+1) :: canonicalDeletes i head else []

/-- `SetHead(head, delFn)` (part_001:229-259).  `dp` states whether a delete
callback was supplied (`delFn != nil`).  Returns the new state together with
the single batch committed by the invocation's one `batch.Write()`: capture
the original height, run the rewind walk, append the canonical rollback,
commit the batch, fall back to genesis if no header remained reachable, and
finally persist the new head hash. -/
def setHead (hc : HeaderChain) (head : Nat) (dp : Bool) : HeaderChain × List Entry :=
  let height := match hc.currentHeader with
                | some hdr => hdr.number
                | none => 0
  let w := setHeadWalk head dp (height + 1) hc []
  let batch := w.2 ++ canonicalDeletes height head
  let hc1 := { w.1 with db := applyBatch batch w.1.db }
  let hc2 := match hc1.currentHeader with
             | none => { hc1 with currentHeader := some hc1.genesisHeader }
             | some _ => hc1
  let chh := match hc2.currentHeader with
             | some h => h.hash
             | none => 0
  ({ hc2 with currentHeaderHash := chh, db := { hc2.db with headHash := chh } }, batch)

/-! ### Linearly chained canonical states

`mkChainFrom f lo hi` is the chain state whose durable store holds exactly the
headers of heights `lo..hi` of a linear chain with hash assignment `f` (header
at height i has hash `f i` and parent hash `f (i-1)`), whose canonical index
maps each stored height to its hash, and whose current head is the header at
height `hi` with empty caches.  `lo = 0` is the fully stored chain; `lo ≥ 1`
describes a store whose headers below `lo` have been pruned (the genesis
header object is still held in memory by the manager). -/

def mkHeader (f : Nat → Nat) (i : Nat) : Header :=
  { parentHash := if i = 0 then 0 else f (i - 1), number := i, hash := f i }

def idxList : Nat → Nat → List Nat
  | _, 0 => []
  | lo, n+1 => lo :: idxList (lo+1) n

def hdrList (f : Nat → Nat) (lo n : Nat) : List ((Nat × Nat) × Header) :=
  (idxList lo n).map (fun i => ((f i, i), mkHeader f i))

def numList (f : Nat → Nat) (lo n : Nat) : List (Nat × Nat) :=
  (idxList lo n).map (fun i => (f i, i))

def canList (f : Nat → Nat) (lo n : Nat) : List (Nat × Nat) :=
  (idxList lo n).map (fun i => (i, f i))

def mkDBFrom (f : Nat → Nat) (lo hi : Nat) : ChainDB :=
  { headers := hdrList f lo (hi + 1 - lo),
    numberIndex := numList f lo (hi + 1 - lo),
    canonical := canList f lo (hi + 1 - lo),
    headHash := f hi }

def mkChainFrom (f : Nat → Nat) (lo hi : Nat) : HeaderChain :=
  { db := mkDBFrom f lo hi,
    genesisHeader := mkHeader f 0,
    currentHeader := some (mkHeader f hi),
    currentHeaderHash := f hi,
    headerCache := [],
    numberCache := [] }

def mkChain (f : Nat → Nat) (hi : Nat) : HeaderChain := mkChainFrom f 0 hi

/-- The header-cache contents built up by a walk that fetched the headers of
heights `lo..lo+n-1` (most recently fetched, i.e. lowest, first). -/
def walkCacheAux (f : Nat → Nat) : Nat → Nat → List (Nat × Header)
  | _, 0 => []
  | lo, n+1 => (f lo, mkHeader f lo) :: walkCacheAux f (lo+1) n

/-- The batch operations the rewind walk records while deleting the headers at
heights `k, k-1, ..., k-s+1` (in that order). -/
def walkOpsAux (f : Nat → Nat) (dp : Bool) : Nat → Nat → List Entry
  | _, 0 => []
  | k, s+1 =>
    (if dp then [Entry.cbCall (f k) k] else [])
      ++ Entry.delHeader (f k) k :: walkOpsAux f dp (k-1) s

/-- Descending run of naturals `[k, k-1, ..., k-n+1]`. -/
def descFrom : Nat → Nat → List Nat
  | _, 0 => []
  | k, n+1 => k :: descFrom (k-1) n

/-! ### Lemmas about the linear-chain store components -/

theorem idxList_append_last (lo n : Nat) :
    idxList lo (n+1) = idxList lo n ++ [lo + n] := by
  induction n generalizing lo with
  | zero => simp [idxList]
  | succ n ih =>
    rw [idxList, ih (lo+1), idxList, List.cons_append]
    have : lo + 1 + n = lo + (n + 1) := by omega
    rw [this]

theorem mem_idxList {x : Nat} : ∀ {n lo : Nat}, x ∈ idxList lo n ↔ lo ≤ x ∧ x < lo + n := by
  intro n
  induction n with
  | zero => intro lo; simp [idxList]
  | succ n ih => intro lo; rw [idxList]; simp only [List.mem_cons, ih]; omega

theorem find_hdrList {f : Nat → Nat} :
    ∀ (n lo j : Nat), lo ≤ j → j < lo + n →
      alistFind (hdrList f lo n) (f j, j) = some (mkHeader f j) := by
  intro n
  induction n with
  | zero => intro lo j h1 h2; omega
  | succ n ih =>
    intro lo j h1 h2
    rw [hdrList, idxList, List.map_cons, alistFind_cons]
    by_cases h : lo = j
    · subst h; rw [if_pos rfl]
    · rw [if_neg (fun hp => h (congrArg Prod.snd hp))]
      exact ih (lo+1) j (by omega) (by omega)

theorem find_hdrList_none {f : Nat → Nat} (n lo x j : Nat)
    (hj : ∀ i, lo ≤ i → i < lo + n → (f i, i) ≠ (x, j)) :
    alistFind (hdrList f lo n) (x, j) = none := by
  apply alistFind_of_notMem
  intro p hp
  rw [hdrList, List.mem_map] at hp
  obtain ⟨i, hi, rfl⟩ := hp
  rw [mem_idxList] at hi
  exact hj i hi.1 hi.2

theorem find_numList {f : Nat → Nat} {B : Nat}
    (hinj : ∀ i j, i ≤ B → j ≤ B → f i = f j → i = j) :
    ∀ (n lo j : Nat), lo + n ≤ B + 1 → lo ≤ j → j < lo + n →
      alistFind (numList f lo n) (f j) = some j := by
  intro n
  induction n with
  | zero => intro lo j _ h1 h2; omega
  | succ n ih =>
    intro lo j hB h1 h2
    rw [numList, idxList, List.map_cons, alistFind_cons]
    by_cases h : lo = j
    · subst h; rw [if_pos rfl]
    · have hne : f lo ≠ f j := fun he => h (hinj lo j (by omega) (by omega) he)
      rw [if_neg hne]
      exact ih (lo+1) j (by omega) (by omega) (by omega)

theorem find_numList_none {f : Nat → Nat} (n lo x : Nat)
    (hx : ∀ i, lo ≤ i → i < lo + n → x ≠ f i) :
    alistFind (numList f lo n) x = none := by
  apply alistFind_of_notMem
  intro p hp
  rw [numList, List.mem_map] at hp
  obtain ⟨i, hi, rfl⟩ := hp
  rw [mem_idxList] at hi
  exact fun he => hx i hi.1 hi.2 he.symm

theorem find_canList {f : Nat → Nat} :
    ∀ (n lo j : Nat), lo ≤ j → j < lo + n →
      alistFind (canList f lo n) j = some (f j) := by
  intro n
  induction n with
  | zero => intro lo j h1 h2; omega
  | succ n ih =>
    intro lo j h1 h2
    rw [canList, idxList, List.map_cons, alistFind_cons]
    by_cases h : lo = j
    · subst h; rw [if_pos rfl]
    · rw [if_neg h]
      exact ih (lo+1) j (by omega) (by omega)

theorem find_canList_none (f : Nat → Nat) (n lo j : Nat)
    (hj : j < lo ∨ lo + n ≤ j) :
    alistFind (canList f lo n) j = none := by
  apply alistFind_of_notMem
  intro p hp
  rw [canList, List.mem_map] at hp
  obtain ⟨i, hi, rfl⟩ := hp
  rw [mem_idxList] at hi
  intro he
  have h2 : i = j := he
  omega

theorem erase_hdrList_last (f : Nat → Nat) (lo n : Nat) :
    alistErase (hdrList f lo (n+1)) (f (lo + n), lo + n) = hdrList f lo n := by
  rw [hdrList, idxList_append_last, List.map_append, alistErase_append]
  rw [alistErase_of_notMem]
  · rw [List.map_singleton, alistErase_cons, if_pos rfl]
    rw [show alistErase ([] : List ((Nat × Nat) × Header)) (f (lo+n), lo+n) = [] from rfl]
    rw [List.append_nil]
    rfl
  · intro p hp
    rw [List.mem_map] at hp
    obtain ⟨i, hi, rfl⟩ := hp
    rw [mem_idxList] at hi
    intro hp2
    have h2 : i = lo + n := congrArg Prod.snd hp2
    omega

theorem erase_numList_last {f : Nat → Nat} {B : Nat}
    (hinj : ∀ i j, i ≤ B → j ≤ B → f i = f j → i = j)
    (lo n : Nat) (hB : lo + n ≤ B) :
    alistErase (numList f lo (n+1)) (f (lo + n)) = numList f lo n := by
  rw [numList, idxList_append_last, List.map_append, alistErase_append]
  rw [alistErase_of_notMem]
  · rw [List.map_singleton, alistErase_cons, if_pos rfl]
    rw [show alistErase ([] : List (Nat × Nat)) (f (lo+n)) = [] from rfl]
    rw [List.append_nil]
    rfl
  · intro p hp
    rw [List.mem_map] at hp
    obtain ⟨i, hi, rfl⟩ := hp
    rw [mem_idxList] at hi
    intro he
    have := hinj i (lo + n) (by omega) (by omega) he
    omega

theorem erase_canList_last (f : Nat → Nat) (lo n : Nat) :
    alistErase (canList f lo (n+1)) (lo + n) = canList f lo n := by
  rw [canList, idxList_append_last, List.map_append, alistErase_append]
  rw [alistErase_of_notMem]
  · rw [List.map_singleton, alistErase_cons, if_pos rfl]
    rw [show alistErase ([] : List (Nat × Nat)) (lo+n) = [] from rfl]
    rw [List.append_nil]
    rfl
  · intro p hp
    rw [List.mem_map] at hp
    obtain ⟨i, hi, rfl⟩ := hp
    rw [mem_idxList] at hi
    intro he
    omega

theorem find_walkCacheAux_none {f : Nat → Nat} :
    ∀ (s lo x : Nat), (∀ i, lo ≤ i → i < lo + s → x ≠ f i) →
      alistFind (walkCacheAux f lo s) x = none := by
  intro s
  induction s with
  | zero => intro lo x _; rfl
  | succ s ih =>
    intro lo x h
    rw [walkCacheAux, alistFind_cons]
    rw [if_neg (fun hx => h lo (Nat.le_refl lo) (by omega) hx.symm)]
    exact ih (lo+1) x (fun i h1 h2 => h i (by omega) (by omega))

theorem erase_walkCacheAux {f : Nat → Nat} :
    ∀ (s lo x : Nat), (∀ i, lo ≤ i → i < lo + s → x ≠ f i) →
      alistErase (walkCacheAux f lo s) x = walkCacheAux f lo s := by
  intro s
  induction s with
  | zero => intro lo x _; rfl
  | succ s ih =>
    intro lo x h
    rw [walkCacheAux, alistErase_cons]
    rw [if_neg (fun hx => h lo (Nat.le_refl lo) (by omega) hx.symm)]
    rw [ih (lo+1) x (fun i h1 h2 => h i (by omega) (by omega))]

theorem applyBatch_nil (db : ChainDB) : applyBatch [] db = db := rfl

theorem applyBatch_cons (e : Entry) (b : List Entry) (db : ChainDB) :
    applyBatch (e :: b) db = applyBatch b (applyOp db e) := rfl

theorem applyBatch_append (a b : List Entry) (db : ChainDB) :
    applyBatch (a ++ b) db = applyBatch b (applyBatch a db) := by
  rw [applyBatch, applyBatch, applyBatch, List.foldl_append]

theorem mkHeader_number (f : Nat → Nat) (i : Nat) : (mkHeader f i).number = i := rfl

theorem mkHeader_hash (f : Nat → Nat) (i : Nat) : (mkHeader f i).hash = f i := rfl

theorem mkHeader_parentHash (f : Nat → Nat) (i : Nat) :
    (mkHeader f i).parentHash = if i = 0 then 0 else f (i - 1) := rfl

theorem mkDBFrom_headers (f : Nat → Nat) (lo hi : Nat) :
    (mkDBFrom f lo hi).headers = hdrList f lo (hi + 1 - lo) := rfl

theorem mkDBFrom_numberIndex (f : Nat → Nat) (lo hi : Nat) :
    (mkDBFrom f lo hi).numberIndex = numList f lo (hi + 1 - lo) := rfl

theorem mkDBFrom_canonical (f : Nat → Nat) (lo hi : Nat) :
    (mkDBFrom f lo hi).canonical = canList f lo (hi + 1 - lo) := rfl

theorem mkDBFrom_headHash (f : Nat → Nat) (lo hi : Nat) :
    (mkDBFrom f lo hi).headHash = f hi := rfl

theorem walkCacheAux_cons_down (f : Nat → Nat) (k hi : Nat) (h1 : 1 ≤ k) (h2 : k ≤ hi) :
    walkCacheAux f (k-1) (hi - (k-1)) = (f (k-1), mkHeader f (k-1)) :: walkCacheAux f k (hi - k) := by
  have e1 : hi - (k-1) = (hi - k) + 1 := by omega
  rw [e1, walkCacheAux]
  have e2 : k - 1 + 1 = k := by omega
  rw [e2]

theorem erase_hdrList_top (f : Nat → Nat) (lo k : Nat) (hlo : lo ≤ k) :
    alistErase (hdrList f lo (k + 1 - lo)) (f k, k) = hdrList f lo (k - lo) := by
  obtain ⟨m, rfl⟩ : ∃ m, k = lo + m := ⟨k - lo, by omega⟩
  have e1 : lo + m + 1 - lo = m + 1 := by omega
  have e2 : lo + m - lo = m := by omega
  rw [e1, e2, erase_hdrList_last]

theorem erase_numList_top {f : Nat → Nat} {B : Nat}
    (hinj : ∀ i j, i ≤ B → j ≤ B → f i = f j → i = j)
    (lo k : Nat) (hlo : lo ≤ k) (hB : k ≤ B) :
    alistErase (numList f lo (k + 1 - lo)) (f k) = numList f lo (k - lo) := by
  obtain ⟨m, rfl⟩ : ∃ m, k = lo + m := ⟨k - lo, by omega⟩
  have e1 : lo + m + 1 - lo = m + 1 := by omega
  have e2 : lo + m - lo = m := by omega
  rw [e1, e2, erase_numList_last hinj lo m hB]

theorem erase_canList_top (f : Nat → Nat) (lo k : Nat) (hlo : lo ≤ k) :
    alistErase (canList f lo (k + 1 - lo)) k = canList f lo (k - lo) := by
  obtain ⟨m, rfl⟩ : ∃ m, k = lo + m := ⟨k - lo, by omega⟩
  have e1 : lo + m + 1 - lo = m + 1 := by omega
  have e2 : lo + m - lo = m := by omega
  rw [e1, e2, erase_canList_last]

/-- Rewind fuel: applying the walk's batched deletions (heights `k` down to
`k-s+1`) to a store holding exactly the headers `lo..k`. -/
theorem applyBatch_walkOps {f : Nat → Nat} {B : Nat}
    (hinj : ∀ i j, i ≤ B → j ≤ B → f i = f j → i = j) (dp : Bool) :
    ∀ (s k lo : Nat), s ≤ k + 1 - lo → s ≤ k → k ≤ B →
      ∀ (c : List (Nat × Nat)) (hh : Nat),
      applyBatch (walkOpsAux f dp k s)
          ⟨hdrList f lo (k + 1 - lo), numList f lo (k + 1 - lo), c, hh⟩
        = ⟨hdrList f lo (k + 1 - lo - s), numList f lo (k + 1 - lo - s), c, hh⟩ := by
  intro s
  induction s with
  | zero =>
    intro k lo _ _ _ c hh
    rw [walkOpsAux, applyBatch_nil, Nat.sub_zero]
  | succ s ih =>
    intro k lo hs hks hB c hh
    have hlok : lo ≤ k := by omega
    have hk1 : 1 ≤ k := by omega
    rw [walkOpsAux]
    have hstep : applyBatch (Entry.delHeader (f k) k :: walkOpsAux f dp (k-1) s)
        (⟨hdrList f lo (k + 1 - lo), numList f lo (k + 1 - lo), c, hh⟩ : ChainDB)
        = ⟨hdrList f lo (k + 1 - lo - (s+1)), numList f lo (k + 1 - lo - (s+1)), c, hh⟩ := by
      rw [applyBatch_cons]
      show applyBatch (walkOpsAux f dp (k-1) s)
          ⟨alistErase (hdrList f lo (k + 1 - lo)) (f k, k),
           alistErase (numList f lo (k + 1 - lo)) (f k), c, hh⟩ = _
      rw [erase_hdrList_top f lo k hlok, erase_numList_top hinj lo k hlok hB]
      have e3 : k - lo = (k - 1) + 1 - lo := by omega
      rw [e3, ih (k-1) lo (by omega) (by omega) (by omega) c hh]
      have e4 : k - 1 + 1 - lo - s = k + 1 - lo - (s + 1) := by omega
      rw [e4]
    cases dp with
    | false =>
      rw [show (if false then [Entry.cbCall (f k) k] else []) = ([] : List Entry) from rfl,
          List.nil_append]
      exact hstep
    | true =>
      rw [show (if true then [Entry.cbCall (f k) k] else []) = [Entry.cbCall (f k) k] from rfl,
          List.singleton_append, applyBatch_cons]
      exact hstep

/-- Applying the canonical-index rollback (heights `hi` down to `head+1`) to a
canonical index holding exactly heights `lo..hi`. -/
theorem applyBatch_canonicalDeletes (f : Nat → Nat) :
    ∀ (hi head lo : Nat), head ≤ hi →
      ∀ (hdrs : List ((Nat × Nat) × Header)) (nums : List (Nat × Nat)) (hh : Nat),
      applyBatch (canonicalDeletes hi head)
          ⟨hdrs, nums, canList f lo (hi + 1 - lo), hh⟩
        = ⟨hdrs, nums, canList f lo (head + 1 - lo), hh⟩ := by
  intro hi
  induction hi with
  | zero =>
    intro head lo h hdrs nums hh
    have : head = 0 := by omega
    subst this
    rfl
  | succ i ih =>
    intro head lo h hdrs nums hh
    rw [canonicalDeletes]
    by_cases hlt : head < i + 1
    · rw [if_pos hlt, applyBatch_cons]
      have hcan : alistErase (canList f lo (i + 1 + 1 - lo)) (i+1) = canList f lo (i + 1 - lo) := by
        by_cases hlo : lo ≤ i + 1
        · have := erase_canList_top f lo (i+1) hlo
          exact this
        · have e1 : i + 1 + 1 - lo = 0 := by omega
          have e2 : i + 1 - lo = 0 := by omega
          rw [e1, e2]
          rfl
      show applyBatch (canonicalDeletes i head)
          ⟨hdrs, nums, alistErase (canList f lo (i + 1 + 1 - lo)) (i+1), hh⟩ = _
      rw [hcan]
      have e3 : i + 1 - lo = i + 1 - lo := rfl
      exact ih head lo (by omega) hdrs nums hh
    · rw [if_neg hlt]
      have : head = i + 1 := by omega
      subst this
      rfl

theorem canonicalDeletes_eq_nil : ∀ (n head : Nat), n ≤ head → canonicalDeletes n head = [] := by
  intro n head h
  cases n with
  | zero => rfl
  | succ i => rw [canonicalDeletes, if_neg (by omega)]

/-- Evaluating `GetHeader` on the parent of the header at height `k` in a
linear-chain state whose header cache holds exactly heights `k..hi-1`: a cache
miss followed by a store hit, which pushes the parent onto the cache. -/
theorem getHeader_parent {f : Nat → Nat} {lo hi : Nat}
    (hinj : ∀ i j, i ≤ hi → j ≤ hi → f i = f j → i = j)
    (k : Nat) (hk1 : 1 ≤ k) (hklo : lo ≤ k - 1) (hkhi : k ≤ hi)
    (g : Header) (co : Option Header) (chh : Nat) (nc : List (Nat × Nat)) :
    getHeader ⟨mkDBFrom f lo hi, g, co, chh, walkCacheAux f k (hi - k), nc⟩ (f (k-1)) (k-1)
      = (some (mkHeader f (k-1)),
         ⟨mkDBFrom f lo hi, g, co, chh, walkCacheAux f (k-1) (hi - (k-1)), nc⟩) := by
  have hmiss : ∀ i, k ≤ i → i < k + (hi - k) → f (k-1) ≠ f i := by
    intro i h1 h2 he
    have := hinj (k-1) i (by omega) (by omega) he
    omega
  have hc1 : alistFind (walkCacheAux f k (hi - k)) (f (k-1)) = none :=
    find_walkCacheAux_none (hi - k) k (f (k-1)) hmiss
  have hc2 : alistFind (hdrList f lo (hi + 1 - lo)) (f (k-1), k-1) = some (mkHeader f (k-1)) :=
    find_hdrList (hi + 1 - lo) lo (k-1) hklo (by omega)
  have hc3 : alistErase (walkCacheAux f k (hi - k)) (f (k-1)) = walkCacheAux f k (hi - k) :=
    erase_walkCacheAux (hi - k) k (f (k-1)) hmiss
  rw [getHeader]
  dsimp only
  rw [hc1]
  dsimp only
  rw [readHeader, mkDBFrom_headers, hc2]
  dsimp only
  rw [cacheAdd, hc3, ← walkCacheAux_cons_down f k hi hk1 hkhi]

/-- Evaluating `GetHeader` on the parent of the header at height `k` when that
parent (height `k-1`) lies below the retained range `lo..hi`: a miss in both
the cache and the store. -/
theorem getHeader_parent_below {f : Nat → Nat} {lo hi : Nat}
    (hinj : ∀ i j, i ≤ hi → j ≤ hi → f i = f j → i = j)
    (k : Nat) (hk1 : 1 ≤ k) (hbelow : k - 1 < lo) (hkhi : k ≤ hi)
    (g : Header) (co : Option Header) (chh : Nat) (nc : List (Nat × Nat)) :
    getHeader ⟨mkDBFrom f lo hi, g, co, chh, walkCacheAux f k (hi - k), nc⟩ (f (k-1)) (k-1)
      = (none, ⟨mkDBFrom f lo hi, g, co, chh, walkCacheAux f k (hi - k), nc⟩) := by
  have hmiss : ∀ i, k ≤ i → i < k + (hi - k) → f (k-1) ≠ f i := by
    intro i h1 h2 he
    have := hinj (k-1) i (by omega) (by omega) he
    omega
  have hc1 : alistFind (walkCacheAux f k (hi - k)) (f (k-1)) = none :=
    find_walkCacheAux_none (hi - k) k (f (k-1)) hmiss
  have hc2 : alistFind (hdrList f lo (hi + 1 - lo)) (f (k-1), k-1) = none := by
    apply find_hdrList_none
    intro i hi1 hi2 hp
    have h2 : i = k - 1 := congrArg Prod.snd hp
    omega
  rw [getHeader]
  dsimp only
  rw [hc1]
  dsimp only
  rw [readHeader, mkDBFrom_headers, hc2]

/-- The rewind walk from the header at height `k = head + s` down to the
target height `head`, when every intermediate header (and the target) is in
the store.  The store is untouched (the deletions sit in the batch), the head
pointer descends to the header at `head`, and the cache accumulates the
fetched parents. -/
theorem setHeadWalk_desc {f : Nat → Nat} {lo hi head : Nat} {dp : Bool}
    (hinj : ∀ i j, i ≤ hi → j ≤ hi → f i = f j → i = j)
    (hu : hi < u64) (hlo : lo ≤ head) :
    ∀ (s extra k : Nat), k = head + s → k ≤ hi →
      ∀ (g : Header) (chh : Nat) (nc : List (Nat × Nat)) (batch0 : List Entry),
      setHeadWalk head dp (s + 1 + extra)
          ⟨mkDBFrom f lo hi, g, some (mkHeader f k), chh, walkCacheAux f k (hi - k), nc⟩ batch0
        = (⟨mkDBFrom f lo hi, g, some (mkHeader f head), chh,
            walkCacheAux f head (hi - head), nc⟩,
           batch0 ++ walkOpsAux f dp k s) := by
  intro s
  induction s with
  | zero =>
    intro extra k hk hkhi g chh nc batch0
    have hk0 : k = head := by omega
    subst hk0
    have e : 0 + 1 + extra = extra + 1 := by omega
    rw [e, setHeadWalk]
    dsimp only
    rw [mkHeader_number, if_pos (Nat.le_refl k)]
    rw [walkOpsAux, List.append_nil]
  | succ s ih =>
    intro extra k hk hkhi g chh nc batch0
    have hk1 : 1 ≤ k := by omega
    have e : s + 1 + 1 + extra = (s + 1 + extra) + 1 := by omega
    rw [e, setHeadWalk]
    dsimp only
    rw [mkHeader_number, if_neg (by omega)]
    rw [mkHeader_parentHash, if_neg (by omega : ¬ k = 0),
        u64sub1_eq hk1 (by omega), mkHeader_hash]
    rw [getHeader_parent hinj k hk1 (by omega) hkhi g (some (mkHeader f k)) chh nc]
    dsimp only
    rw [List.append_assoc]
    rw [ih extra (k-1) (by omega) (by omega) g chh nc
        (batch0 ++ ((if dp then [Entry.cbCall (f k) k] else [])
          ++ [Entry.delHeader (f k) k]))]
    rw [walkOpsAux]
    simp [List.append_assoc]

/-- The rewind walk from the header at height `k = lo + s` when the target
height lies strictly below the retained range (`head < lo`): the walk deletes
every retained header down to `lo`, then the parent fetch fails and the head
pointer becomes `none`. -/
theorem setHeadWalk_below {f : Nat → Nat} {lo hi head : Nat} {dp : Bool}
    (hinj : ∀ i j, i ≤ hi → j ≤ hi → f i = f j → i = j)
    (hu : hi < u64) (hhead : head < lo) (hlo1 : 1 ≤ lo) :
    ∀ (s extra k : Nat), k = lo + s → k ≤ hi →
      ∀ (g : Header) (chh : Nat) (nc : List (Nat × Nat)) (batch0 : List Entry),
      setHeadWalk head dp (s + 2 + extra)
          ⟨mkDBFrom f lo hi, g, some (mkHeader f k), chh, walkCacheAux f k (hi - k), nc⟩ batch0
        = (⟨mkDBFrom f lo hi, g, none, chh, walkCacheAux f lo (hi - lo), nc⟩,
           batch0 ++ walkOpsAux f dp k (s + 1)) := by
  intro s
  induction s with
  | zero =>
    intro extra k hk hkhi g chh nc batch0
    have hk0 : k = lo := by omega
    subst hk0
    have e : 0 + 2 + extra = (extra + 1) + 1 := by omega
    rw [e, setHeadWalk]
    dsimp only
    rw [mkHeader_number, if_neg (by omega)]
    rw [mkHeader_parentHash, if_neg (by omega : ¬ k = 0),
        u64sub1_eq (by omega) (by omega), mkHeader_hash]
    rw [getHeader_parent_below hinj k (by omega) (by omega) hkhi g (some (mkHeader f k)) chh nc]
    dsimp only
    rw [setHeadWalk]
    dsimp only
    rw [walkOpsAux, walkOpsAux]
    simp [List.append_assoc]
  | succ s ih =>
    intro extra k hk hkhi g chh nc batch0
    have hk1 : 1 ≤ k := by omega
    have e : s + 1 + 2 + extra = (s + 2 + extra) + 1 := by omega
    rw [e, setHeadWalk]
    dsimp only
    rw [mkHeader_number, if_neg (by omega)]
    rw [mkHeader_parentHash, if_neg (by omega : ¬ k = 0),
        u64sub1_eq hk1 (by omega), mkHeader_hash]
    rw [getHeader_parent hinj k hk1 (by omega) hkhi g (some (mkHeader f k)) chh nc]
    dsimp only
    rw [List.append_assoc]
    rw [ih extra (k-1) (by omega) (by omega) g chh nc
        (batch0 ++ ((if dp then [Entry.cbCall (f k) k] else [])
          ++ [Entry.delHeader (f k) k]))]
    rw [walkOpsAux, walkOpsAux]
    simp [List.append_assoc]
    conv_rhs => rw [walkOpsAux]

/-- Full characterization of `SetHead` on a linearly chained canonical state
when the target height lies inside the retained range `lo..hi`: the store is
cut back to heights `lo..head` (headers, hash-to-number index and canonical
index alike), the head pointer and the persisted head hash move to the header
at `head`, the header cache has accumulated the walked-over parents, and the
single committed batch consists of the walk's callback/delete pairs for
heights `hi..head+1` followed by the canonical rollback. -/
theorem setHead_rewind (f : Nat → Nat) (lo hi head : Nat) (dp : Bool)
    (hinj : ∀ i j, i ≤ hi → j ≤ hi → f i = f j → i = j)
    (hu : hi < u64) (hlo : lo ≤ head) (hhi : head ≤ hi) :
    setHead (mkChainFrom f lo hi) head dp
      = (⟨mkDBFrom f lo head, mkHeader f 0, some (mkHeader f head), f head,
          walkCacheAux f head (hi - head), []⟩,
         walkOpsAux f dp hi (hi - head) ++ canonicalDeletes hi head) := by
  rw [show mkChainFrom f lo hi
      = (⟨mkDBFrom f lo hi, mkHeader f 0, some (mkHeader f hi), f hi, [], []⟩ : HeaderChain)
      from rfl]
  rw [setHead]
  dsimp only
  rw [mkHeader_number]
  have e : hi + 1 = (hi - head) + 1 + head := by omega
  rw [e]
  rw [show ([] : List (Nat × Header)) = walkCacheAux f hi (hi - hi) from by rw [Nat.sub_self]; rfl]
  rw [setHeadWalk_desc hinj hu hlo (hi - head) head hi (by omega) (by omega)
      (mkHeader f 0) (f hi) [] []]
  dsimp only
  rw [List.nil_append]
  rw [show mkDBFrom f lo hi
      = (⟨hdrList f lo (hi + 1 - lo), numList f lo (hi + 1 - lo),
          canList f lo (hi + 1 - lo), f hi⟩ : ChainDB) from rfl]
  rw [applyBatch_append]
  rw [applyBatch_walkOps hinj dp (hi - head) hi lo (by omega) (by omega) (Nat.le_refl hi)]
  have e2 : hi + 1 - lo - (hi - head) = head + 1 - lo := by omega
  rw [e2]
  rw [applyBatch_canonicalDeletes f hi head lo hhi]
  dsimp only
  rw [mkHeader_hash]
  rfl

/-- Full characterization of `SetHead` when the target height lies strictly
below the retained range (`head < lo`, headers below `lo` pruned): every
retained header is deleted, the rewind walk's parent fetch fails at `lo`, and
the head falls back to the in-memory genesis header, whose hash is persisted
as the new head hash. -/
theorem setHead_genesis_fallback (f : Nat → Nat) (lo hi head : Nat) (dp : Bool)
    (hinj : ∀ i j, i ≤ hi → j ≤ hi → f i = f j → i = j)
    (hu : hi < u64) (hlo1 : 1 ≤ lo) (hhead : head < lo) (hlohi : lo ≤ hi) :
    setHead (mkChainFrom f lo hi) head dp
      = (⟨⟨[], [], [], f 0⟩, mkHeader f 0, some (mkHeader f 0), f 0,
          walkCacheAux f lo (hi - lo), []⟩,
         walkOpsAux f dp hi (hi - lo + 1) ++ canonicalDeletes hi head) := by
  rw [show mkChainFrom f lo hi
      = (⟨mkDBFrom f lo hi, mkHeader f 0, some (mkHeader f hi), f hi, [], []⟩ : HeaderChain)
      from rfl]
  rw [setHead]
  dsimp only
  rw [mkHeader_number]
  have e : hi + 1 = (hi - lo) + 2 + (lo - 1) := by omega
  rw [e]
  rw [show ([] : List (Nat × Header)) = walkCacheAux f hi (hi - hi) from by rw [Nat.sub_self]; rfl]
  rw [setHeadWalk_below hinj hu hhead hlo1 (hi - lo) (lo - 1) hi (by omega) (by omega)
      (mkHeader f 0) (f hi) [] []]
  dsimp only
  rw [List.nil_append]
  rw [show mkDBFrom f lo hi
      = (⟨hdrList f lo (hi + 1 - lo), numList f lo (hi + 1 - lo),
          canList f lo (hi + 1 - lo), f hi⟩ : ChainDB) from rfl]
  rw [applyBatch_append]
  rw [applyBatch_walkOps hinj dp (hi - lo + 1) hi lo (by omega) (by omega) (Nat.le_refl hi)]
  have e2 : hi + 1 - lo - (hi - lo + 1) = 0 := by omega
  rw [e2]
  rw [applyBatch_canonicalDeletes f hi head lo (by omega)]
  have e3 : head + 1 - lo = 0 := by omega
  rw [e3]
  dsimp only
  rw [mkHeader_hash]
  rfl

/-- `SetHead` with a target at or above the current height changes nothing:
the rewind loop stops immediately, the canonical rollback is empty, an empty
batch is committed and the unchanged head hash is rewritten. -/
theorem setHead_noop (f : Nat → Nat) (lo hi head : Nat) (dp : Bool) (hge : hi ≤ head) :
    setHead (mkChainFrom f lo hi) head dp = (mkChainFrom f lo hi, []) := by
  rw [show mkChainFrom f lo hi
      = (⟨mkDBFrom f lo hi, mkHeader f 0, some (mkHeader f hi), f hi, [], []⟩ : HeaderChain)
      from rfl]
  rw [setHead]
  dsimp only
  rw [mkHeader_number]
  rw [setHeadWalk]
  dsimp only
  rw [mkHeader_number, if_pos hge]
  rw [canonicalDeletes_eq_nil hi head hge]
  dsimp only
  rw [mkHeader_hash]
  rfl

/-- A state whose current head already sits at or below the target is a fixed
point of `SetHead`: the call returns the state unchanged with an empty batch. -/
theorem setHead_fix (db0 : ChainDB) (g hdr : Header) (hcache : List (Nat × Header))
    (ncache : List (Nat × Nat)) (head : Nat) (dp : Bool)
    (hle : hdr.number ≤ head) (hdb : db0.headHash = hdr.hash) :
    setHead ⟨db0, g, some hdr, hdr.hash, hcache, ncache⟩ head dp
      = (⟨db0, g, some hdr, hdr.hash, hcache, ncache⟩, []) := by
  obtain ⟨hdrs, nums, cans, hh⟩ := db0
  have hh2 : hh = hdr.hash := hdb
  subst hh2
  rw [setHead]
  dsimp only
  rw [setHeadWalk]
  dsimp only
  rw [if_pos hle]
  rw [canonicalDeletes_eq_nil _ _ hle]
  rfl

/-- C3: after SetHead(h, cb) on a linearly chained canonical state with head
height H > h, GetHeaderByNumber(k) is absent for every h < k ≤ H (the
canonical entries above h are gone from the durable index),
GetHeaderByNumber(h) still returns the canonical header at height h, and
CurrentHeader() equals that header. -/
theorem C3_setHead_canonical (f : Nat → Nat) (hi head : Nat) (dp : Bool)
    (hinj : ∀ i, i ≤ hi → ∀ j, j ≤ hi → f i = f j → i = j)
    (hnz : ∀ i, i ≤ hi → f i ≠ 0)
    (hu : hi < u64) (hlt : head < hi) :
    (∀ k, head < k → k ≤ hi →
       (getHeaderByNumber (setHead (mkChain f hi) head dp).1 k).1 = none)
    ∧ (getHeaderByNumber (setHead (mkChain f hi) head dp).1 head).1 = some (mkHeader f head)
    ∧ (setHead (mkChain f hi) head dp).1.currentHeader = some (mkHeader f head) := by
  have hinj2 : ∀ i j, i ≤ hi → j ≤ hi → f i = f j → i = j :=
    fun i j h1 h2 he => hinj i h1 j h2 he
  rw [mkChain, setHead_rewind f 0 hi head dp hinj2 hu (Nat.zero_le head) (Nat.le_of_lt hlt)]
  dsimp only
  refine ⟨?_, ?_, rfl⟩
  · intro k hk1 hk2
    rw [getHeaderByNumber]
    have hfind : alistFind (canList f 0 (head + 1 - 0)) k = none :=
      find_canList_none f (head + 1 - 0) 0 k (by omega)
    rw [readCanonicalHash, mkDBFrom_canonical, hfind]
    rfl
  · rw [getHeaderByNumber]
    have hfind : alistFind (canList f 0 (head + 1 - 0)) head = some (f head) :=
      find_canList (head + 1 - 0) 0 head (by omega) (by omega)
    rw [readCanonicalHash, mkDBFrom_canonical, hfind]
    dsimp only
    rw [if_neg (hnz head (by omega))]
    rw [getHeader]
    dsimp only
    have e : hi - head = (hi - head - 1) + 1 := by omega
    rw [e, walkCacheAux, alistFind_cons, if_pos rfl]

theorem C3_setHead_canonical_witness :
    (∀ k, 1 < k → k ≤ 3 →
       (getHeaderByNumber (setHead (mkChain (fun i => i + 1) 3) 1 true).1 k).1 = none)
    ∧ (getHeaderByNumber (setHead (mkChain (fun i => i + 1) 3) 1 true).1 1).1
        = some (mkHeader (fun i => i + 1) 1)
    ∧ (setHead (mkChain (fun i => i + 1) 3) 1 true).1.currentHeader
        = some (mkHeader (fun i => i + 1) 1) :=
  C3_setHead_canonical (fun i => i + 1) 3 1 true
    (by intro i h1 j2 h2 he; simp only [] at he; omega)
    (by intro i h; simp)
    (by rw [u64]; omega)
    (by omega)

/-- C5: when the rewind target lies below every retained header (the walk from
the old head hits a missing parent before reaching a height ≤ h), the current
head falls back to the genesis header and the genesis hash is persisted as the
head-header hash. -/
theorem C5_setHead_genesis (f : Nat → Nat) (lo hi head : Nat) (dp : Bool)
    (hinj : ∀ i, i ≤ hi → ∀ j, j ≤ hi → f i = f j → i = j)
    (hu : hi < u64) (hlo1 : 1 ≤ lo) (hhead : head < lo) (hlohi : lo ≤ hi) :
    (setHead (mkChainFrom f lo hi) head dp).1.currentHeader
        = some (mkChainFrom f lo hi).genesisHeader
    ∧ (setHead (mkChainFrom f lo hi) head dp).1.db.headHash
        = (mkChainFrom f lo hi).genesisHeader.hash
    ∧ (setHead (mkChainFrom f lo hi) head dp).1.currentHeaderHash
        = (mkChainFrom f lo hi).genesisHeader.hash := by
  have hinj2 : ∀ i j, i ≤ hi → j ≤ hi → f i = f j → i = j :=
    fun i j h1 h2 he => hinj i h1 j h2 he
  rw [setHead_genesis_fallback f lo hi head dp hinj2 hu hlo1 hhead hlohi]
  exact ⟨rfl, rfl, rfl⟩

theorem C5_setHead_genesis_witness :
    (setHead (mkChainFrom (fun i => i + 1) 2 4) 1 true).1.currentHeader
        = some (mkChainFrom (fun i => i + 1) 2 4).genesisHeader
    ∧ (setHead (mkChainFrom (fun i => i + 1) 2 4) 1 true).1.db.headHash
        = (mkChainFrom (fun i => i + 1) 2 4).genesisHeader.hash
    ∧ (setHead (mkChainFrom (fun i => i + 1) 2 4) 1 true).1.currentHeaderHash
        = (mkChainFrom (fun i => i + 1) 2 4).genesisHeader.hash :=
  C5_setHead_genesis (fun i => i + 1) 2 4 1 true
    (by intro i h1 j h2 he; simp only [] at he; omega)
    (by rw [u64]; omega)
    (by omega) (by omega) (by omega)

/-- C6: SetHead is idempotent on linearly chained canonical states: the second
call with the same target returns the state of the first call completely
unchanged (same head pointer, same persisted head hash, same canonical index,
same store) and commits an empty batch — so it deletes nothing and never
invokes the callback. -/
theorem C6_setHead_idempotent (f : Nat → Nat) (hi head : Nat) (dp : Bool)
    (hinj : ∀ i, i ≤ hi → ∀ j, j ≤ hi → f i = f j → i = j) (hu : hi < u64) :
    setHead (setHead (mkChain f hi) head dp).1 head dp
      = ((setHead (mkChain f hi) head dp).1, []) := by
  have hinj2 : ∀ i j, i ≤ hi → j ≤ hi → f i = f j → i = j :=
    fun i j h1 h2 he => hinj i h1 j h2 he
  by_cases h : hi ≤ head
  · rw [mkChain, setHead_noop f 0 hi head dp h]
    exact setHead_noop f 0 hi head dp h
  · rw [mkChain, setHead_rewind f 0 hi head dp hinj2 hu (Nat.zero_le head) (by omega)]
    exact setHead_fix (mkDBFrom f 0 head) (mkHeader f 0) (mkHeader f head)
      (walkCacheAux f head (hi - head)) [] head dp (Nat.le_refl head) rfl

theorem C6_setHead_idempotent_witness :
    setHead (setHead (mkChain (fun i => i + 1) 3) 1 true).1 1 true
      = ((setHead (mkChain (fun i => i + 1) 3) 1 true).1, []) :=
  C6_setHead_idempotent (fun i => i + 1) 3 1 true
    (by intro i h1 j h2 he; simp only [] at he; omega)
    (by rw [u64]; omega)

/-- C10: SetHead with a target height at or above the current head height is a
no-op on chain content: the returned state is unchanged (head pointer,
persisted head hash, headers, canonical index and caches alike) and the
committed batch is empty, so no header or canonical entry is deleted and the
callback is never invoked. -/
theorem C10_setHead_noop (f : Nat → Nat) (hi head : Nat) (dp : Bool) (hge : hi ≤ head) :
    setHead (mkChain f hi) head dp = (mkChain f hi, []) := by
  rw [mkChain]
  exact setHead_noop f 0 hi head dp hge

theorem C10_setHead_noop_witness :
    setHead (mkChain (fun i => i + 1) 2) 5 true = (mkChain (fun i => i + 1) 2, []) :=
  C10_setHead_noop (fun i => i + 1) 2 5 true (by omega)

/-! ### The delete-callback discipline of the rewind batch (C4) -/

theorem walkOps_countP_cb (f : Nat → Nat) (j : Nat) :
    ∀ (s k : Nat), s ≤ k →
      List.countP (fun e => decide (e = Entry.cbCall (f j) j)) (walkOpsAux f true k s)
        = if k - s < j ∧ j ≤ k then 1 else 0 := by
  intro s
  induction s with
  | zero =>
    intro k _
    rw [walkOpsAux, List.countP_nil, if_neg (by omega)]
  | succ s ih =>
    intro k hks
    rw [walkOpsAux,
        show (if true then [Entry.cbCall (f k) k] else []) = [Entry.cbCall (f k) k] from rfl,
        List.singleton_append]
    rw [List.countP_cons, List.countP_cons, ih (k-1) (by omega)]
    have hdel : (decide (Entry.delHeader (f k) k = Entry.cbCall (f j) j)) = false := by
      simp
    have hbf : ¬((false : Bool) = true) := by simp
    by_cases hj : j = k
    · have hcb : (decide (Entry.cbCall (f k) k = Entry.cbCall (f j) j)) = true := by
        rw [hj]
        simp
      rw [hdel, hcb]
      rw [if_neg hbf, if_pos (rfl : (true : Bool) = true)]
      have hL : ¬(k - 1 - s < j ∧ j ≤ k - 1) := by
        rintro ⟨hA, hB⟩
        omega
      have hR : k - (s + 1) < j ∧ j ≤ k := ⟨by omega, by omega⟩
      rw [if_neg hL, if_pos hR]
    · have hcb : (decide (Entry.cbCall (f k) k = Entry.cbCall (f j) j)) = false := by
        simp only [Entry.cbCall.injEq, decide_eq_false_iff_not]
        rintro ⟨h1x, h2x⟩
        exact hj h2x.symm
      rw [hdel, hcb]
      rw [if_neg hbf]
      by_cases hcond : k - (s + 1) < j ∧ j ≤ k
      · have hL : k - 1 - s < j ∧ j ≤ k - 1 := ⟨by omega, by omega⟩
        rw [if_pos hcond, if_pos hL]
      · have hL : ¬(k - 1 - s < j ∧ j ≤ k - 1) := by
          rintro ⟨hA, hB⟩
          exact hcond ⟨by omega, by omega⟩
        rw [if_neg hcond, if_neg hL]

theorem walkOps_mem_cb (f : Nat → Nat) (dp : Bool) :
    ∀ (s k : Nat), s ≤ k → ∀ hsh m, Entry.cbCall hsh m ∈ walkOpsAux f dp k s →
      k - s < m ∧ m ≤ k ∧ hsh = f m := by
  intro s
  induction s with
  | zero =>
    intro k _ hsh m hm
    rw [walkOpsAux] at hm
    cases hm
  | succ s ih =>
    intro k hks hsh m hm
    rw [walkOpsAux, List.mem_append, List.mem_cons] at hm
    rcases hm with hm | hm | hm
    · cases dp with
      | false => simp at hm
      | true =>
        simp only [if_pos, List.mem_singleton] at hm
        have hm2 : hsh = f k ∧ m = k := by
          have := hm
          simp at this
          exact this
        obtain ⟨h1, h2⟩ := hm2
        subst h2
        exact ⟨by omega, by omega, h1⟩
    · exact absurd hm (by simp)
    · have := ih (k-1) (by omega) hsh m hm
      exact ⟨by omega, by omega, this.2.2⟩

theorem canonicalDeletes_no_cb :
    ∀ (n head hsh m : Nat), Entry.cbCall hsh m ∉ canonicalDeletes n head := by
  intro n
  induction n with
  | zero => intro head hsh m hm; cases hm
  | succ i ih =>
    intro head hsh m hm
    rw [canonicalDeletes] at hm
    by_cases h : head < i + 1
    · rw [if_pos h, List.mem_cons] at hm
      rcases hm with hm | hm
      · exact absurd hm (by simp)
      · exact ih head hsh m hm
    · rw [if_neg h] at hm
      cases hm

theorem walkOps_split_cb (f : Nat → Nat) (j : Nat) :
    ∀ (s k : Nat), s ≤ k → k - s < j → j ≤ k →
      ∃ l₁ l₂, walkOpsAux f true k s
        = l₁ ++ Entry.cbCall (f j) j :: Entry.delHeader (f j) j :: l₂ := by
  intro s
  induction s with
  | zero => intro k h1 h2 h3; omega
  | succ s ih =>
    intro k hks h2 h3
    rw [walkOpsAux,
        show (if true then [Entry.cbCall (f k) k] else []) = [Entry.cbCall (f k) k] from rfl,
        List.singleton_append]
    by_cases hj : j = k
    · subst hj
      exact ⟨[], walkOpsAux f true (j-1) s, rfl⟩
    · obtain ⟨l₁, l₂, hl⟩ := ih (k-1) (by omega) (by omega) (by omega)
      exact ⟨Entry.cbCall (f k) k :: Entry.delHeader (f k) k :: l₁, l₂, by rw [hl]; simp⟩

/-- C4: for a rewind on a linearly chained canonical state with a non-null
delete callback, the single committed batch contains exactly one callback
invocation per removed height h < k ≤ H, carrying that height's hash and
number; no other callback invocations occur; each callback invocation
immediately precedes that header's deletion in the batch; and the final store
equals the original store with that one batch applied and the new head hash
written (all deletions go through the one commit). -/
theorem C4_setHead_callbacks (f : Nat → Nat) (hi head : Nat)
    (hinj : ∀ i, i ≤ hi → ∀ j, j ≤ hi → f i = f j → i = j)
    (hu : hi < u64) (hlt : head < hi) :
    (∀ k, head < k → k ≤ hi →
       List.countP (fun e => decide (e = Entry.cbCall (f k) k))
         ((setHead (mkChain f hi) head true).2) = 1)
    ∧ (∀ hsh m, Entry.cbCall hsh m ∈ (setHead (mkChain f hi) head true).2 →
         head < m ∧ m ≤ hi ∧ hsh = f m)
    ∧ (∀ k, head < k → k ≤ hi →
         ∃ l₁ l₂, (setHead (mkChain f hi) head true).2
           = l₁ ++ Entry.cbCall (f k) k :: Entry.delHeader (f k) k :: l₂)
    ∧ (setHead (mkChain f hi) head true).1.db
        = { applyBatch ((setHead (mkChain f hi) head true).2) (mkChain f hi).db with
            headHash := f head } := by
  have hinj2 : ∀ i j, i ≤ hi → j ≤ hi → f i = f j → i = j :=
    fun i j h1 h2 he => hinj i h1 j h2 he
  rw [mkChain, setHead_rewind f 0 hi head true hinj2 hu (Nat.zero_le head) (Nat.le_of_lt hlt)]
  dsimp only
  refine ⟨?_, ?_, ?_, ?_⟩
  · intro k hk1 hk2
    rw [List.countP_append, walkOps_countP_cb f k (hi - head) hi (by omega)]
    have hc0 : List.countP (fun e => decide (e = Entry.cbCall (f k) k))
        (canonicalDeletes hi head) = 0 := by
      rw [List.countP_eq_zero]
      intro a ha
      simp only [decide_eq_true_eq]
      intro hEq
      subst hEq
      exact canonicalDeletes_no_cb hi head (f k) k ha
    rw [hc0, if_pos (by omega)]
  · intro hsh m hm
    rw [List.mem_append] at hm
    rcases hm with hm | hm
    · have := walkOps_mem_cb f true (hi - head) hi (by omega) hsh m hm
      exact ⟨by omega, this.2.1, this.2.2⟩
    · exact absurd hm (canonicalDeletes_no_cb hi head hsh m)
  · intro k hk1 hk2
    obtain ⟨l₁, l₂, hl⟩ := walkOps_split_cb f k (hi - head) hi (by omega) (by omega) (by omega)
    refine ⟨l₁, l₂ ++ canonicalDeletes hi head, ?_⟩
    rw [hl]
    simp [List.append_assoc]
  · rw [show (mkChainFrom f 0 hi).db = mkDBFrom f 0 hi from rfl]
    rw [show mkDBFrom f 0 hi
        = (⟨hdrList f 0 (hi + 1 - 0), numList f 0 (hi + 1 - 0),
            canList f 0 (hi + 1 - 0), f hi⟩ : ChainDB) from rfl]
    rw [applyBatch_append]
    rw [applyBatch_walkOps hinj2 true (hi - head) hi 0 (by omega) (by omega) (Nat.le_refl hi)]
    have e2 : hi + 1 - 0 - (hi - head) = head + 1 - 0 := by omega
    rw [e2]
    rw [applyBatch_canonicalDeletes f hi head 0 (by omega)]
    rfl

theorem C4_setHead_callbacks_witness :
    (∀ k, 1 < k → k ≤ 3 →
       List.countP (fun e => decide (e = Entry.cbCall ((fun i => i + 1) k) k))
         ((setHead (mkChain (fun i => i + 1) 3) 1 true).2) = 1)
    ∧ (∀ hsh m, Entry.cbCall hsh m ∈ (setHead (mkChain (fun i => i + 1) 3) 1 true).2 →
         1 < m ∧ m ≤ 3 ∧ hsh = (fun i => i + 1) m)
    ∧ (∀ k, 1 < k → k ≤ 3 →
         ∃ l₁ l₂, (setHead (mkChain (fun i => i + 1) 3) 1 true).2
           = l₁ ++ Entry.cbCall ((fun i => i + 1) k) k
               :: Entry.delHeader ((fun i => i + 1) k) k :: l₂)
    ∧ (setHead (mkChain (fun i => i + 1) 3) 1 true).1.db
        = { applyBatch ((setHead (mkChain (fun i => i + 1) 3) 1 true).2)
              (mkChain (fun i => i + 1) 3).db with
            headHash := (fun i => i + 1) 1 } :=
  C4_setHead_callbacks (fun i => i + 1) 3 1
    (by intro i h1 j h2 he; simp only [] at he; omega)
    (by rw [u64]; omega)
    (by omega)

/-! ### The ancestor walk (C7) -/

theorem descFrom_length : ∀ (n k : Nat), (descFrom k n).length = n := by
  intro n
  induction n with
  | zero => intro k; rfl
  | succ n ih => intro k; rw [descFrom, List.length_cons, ih]

theorem descFrom_mem {x : Nat} : ∀ {n k : Nat}, x ∈ descFrom k n → 1 ≤ n ∧ x ≤ k := by
  intro n
  induction n with
  | zero => intro k hm; cases hm
  | succ n ih =>
    intro k hm
    rw [descFrom, List.mem_cons] at hm
    rcases hm with hm | hm
    · subst hm; omega
    · have := ih hm
      omega

/-- `GetHeader` on the parent of the header at height `j ≥ lo + 1`, with a
cache holding exactly heights `j..j+cs-1`: a cache miss and a store hit,
pushing the parent onto the cache. -/
theorem getHeader_parent_gen {f : Nat → Nat} {lo hi : Nat}
    (hinj : ∀ i j, i ≤ hi → j ≤ hi → f i = f j → i = j)
    (j cs : Nat) (hj1 : 1 ≤ j) (hjlo : lo ≤ j - 1) (hjcs : j + cs ≤ hi + 1) (hjhi : j - 1 ≤ hi)
    (g : Header) (co : Option Header) (chh : Nat) (nc : List (Nat × Nat)) :
    getHeader ⟨mkDBFrom f lo hi, g, co, chh, walkCacheAux f j cs, nc⟩ (f (j-1)) (j-1)
      = (some (mkHeader f (j-1)),
         ⟨mkDBFrom f lo hi, g, co, chh, walkCacheAux f (j-1) (cs+1), nc⟩) := by
  have hmiss : ∀ i, j ≤ i → i < j + cs → f (j-1) ≠ f i := by
    intro i h1 h2 he
    have := hinj (j-1) i (by omega) (by omega) he
    omega
  have hc1 : alistFind (walkCacheAux f j cs) (f (j-1)) = none :=
    find_walkCacheAux_none cs j (f (j-1)) hmiss
  have hc2 : alistFind (hdrList f lo (hi + 1 - lo)) (f (j-1), j-1) = some (mkHeader f (j-1)) :=
    find_hdrList (hi + 1 - lo) lo (j-1) hjlo (by omega)
  have hc3 : alistErase (walkCacheAux f j cs) (f (j-1)) = walkCacheAux f j cs :=
    erase_walkCacheAux cs j (f (j-1)) hmiss
  have hc4 : walkCacheAux f (j-1) (cs+1) = (f (j-1), mkHeader f (j-1)) :: walkCacheAux f j cs := by
    rw [walkCacheAux]
    have e : j - 1 + 1 = j := by omega
    rw [e]
  rw [getHeader]
  dsimp only
  rw [hc1]
  dsimp only
  rw [readHeader, mkDBFrom_headers, hc2]
  dsimp only
  rw [cacheAdd, hc3, ← hc4]

/-- `GetHeader` on the parent of the header at height `j = lo ≥ 1` (the
parent was pruned from the store): a miss in both cache and store. -/
theorem getHeader_parent_below_gen {f : Nat → Nat} {lo hi : Nat}
    (hinj : ∀ i j, i ≤ hi → j ≤ hi → f i = f j → i = j)
    (j cs : Nat) (hj1 : 1 ≤ j) (hjlo : j - 1 < lo) (hjcs : j + cs ≤ hi + 1) (hjhi : j - 1 ≤ hi)
    (g : Header) (co : Option Header) (chh : Nat) (nc : List (Nat × Nat)) :
    getHeader ⟨mkDBFrom f lo hi, g, co, chh, walkCacheAux f j cs, nc⟩ (f (j-1)) (j-1)
      = (none, ⟨mkDBFrom f lo hi, g, co, chh, walkCacheAux f j cs, nc⟩) := by
  have hmiss : ∀ i, j ≤ i → i < j + cs → f (j-1) ≠ f i := by
    intro i h1 h2 he
    have := hinj (j-1) i (by omega) (by omega) he
    omega
  have hc1 : alistFind (walkCacheAux f j cs) (f (j-1)) = none :=
    find_walkCacheAux_none cs j (f (j-1)) hmiss
  have hc2 : alistFind (hdrList f lo (hi + 1 - lo)) (f (j-1), j-1) = none := by
    apply find_hdrList_none
    intro i h1 h2 hp
    have h3 : i = j - 1 := congrArg Prod.snd hp
    omega
  rw [getHeader]
  dsimp only
  rw [hc1]
  dsimp only
  rw [readHeader, mkDBFrom_headers, hc2]

/-- `GetHeader` on the zero parent hash of the genesis header, looked up at
uint64 number `0 - 1`: a miss in both cache and store (no stored header has
the zero hash). -/
theorem getHeader_genesis_parent {f : Nat → Nat} {lo hi : Nat}
    (hnz : ∀ i, i ≤ hi → f i ≠ 0) (_hu : hi < u64)
    (c0 cs : Nat) (hcs : c0 + cs ≤ hi + 1)
    (g : Header) (co : Option Header) (chh : Nat) (nc : List (Nat × Nat)) :
    getHeader ⟨mkDBFrom f lo hi, g, co, chh, walkCacheAux f c0 cs, nc⟩ 0 (u64sub1 0)
      = (none, ⟨mkDBFrom f lo hi, g, co, chh, walkCacheAux f c0 cs, nc⟩) := by
  have hc1 : alistFind (walkCacheAux f c0 cs) 0 = none := by
    apply find_walkCacheAux_none
    intro i h1 h2 he
    exact hnz i (by omega) he.symm
  have hc2 : alistFind (hdrList f lo (hi + 1 - lo)) (0, u64sub1 0) = none := by
    apply find_hdrList_none
    intro i h1 h2 hp
    have h3 : f i = 0 := congrArg Prod.fst hp
    exact hnz i (by omega) h3
  rw [getHeader]
  dsimp only
  rw [hc1]
  dsimp only
  rw [readHeader, mkDBFrom_headers, hc2]

/-- The parent-hash collection loop of `GetBlockHashesFromHash`, started at
the stored header of height `j` with the cache holding heights `j..s`:
collects the hashes of heights `j-1, j-2, ...` newest-first until the fuel
`max` runs out, the genesis (height 0) is collected, or the parent is missing
from the store (height `lo` reached with `lo ≥ 1`). -/
theorem hashWalk_desc {f : Nat → Nat} {lo hi s : Nat}
    (hinj : ∀ i j, i ≤ hi → j ≤ hi → f i = f j → i = j)
    (hnz : ∀ i, i ≤ hi → f i ≠ 0)
    (hu : hi < u64) (hshi : s ≤ hi) :
    ∀ (fuel j : Nat), lo ≤ j → j ≤ s →
      ∀ (g : Header) (co : Option Header) (chh : Nat) (nc : List (Nat × Nat)),
      hashWalk ⟨mkDBFrom f lo hi, g, co, chh, walkCacheAux f j (s + 1 - j), nc⟩ (mkHeader f j) fuel
        = ((descFrom (j-1) (min fuel (j - lo))).map f,
           ⟨mkDBFrom f lo hi, g, co, chh,
            walkCacheAux f (j - min fuel (j - lo)) (s + 1 - (j - min fuel (j - lo))), nc⟩) := by
  intro fuel
  induction fuel with
  | zero =>
    intro j hjlo hjs g co chh nc
    rw [hashWalk]
    rw [show min 0 (j - lo) = 0 from by omega]
    rw [descFrom]
    simp only [List.map_nil]
    rw [Nat.sub_zero]
  | succ n ih =>
    intro j hjlo hjs g co chh nc
    rw [hashWalk]
    by_cases hj0 : j = 0
    · subst hj0
      rw [mkHeader_parentHash, if_pos rfl, mkHeader_number]
      rw [getHeader_genesis_parent hnz hu 0 (s + 1 - 0) (by omega) g co chh nc]
      dsimp only
      rw [show min (n+1) (0 - lo) = 0 from by omega]
      rw [descFrom]
      simp only [List.map_nil]
    · by_cases hjlo2 : j - 1 < lo
      · rw [mkHeader_parentHash, if_neg hj0, mkHeader_number,
            u64sub1_eq (by omega) (by omega)]
        rw [getHeader_parent_below_gen hinj j (s + 1 - j) (by omega) hjlo2 (by omega) (by omega)
            g co chh nc]
        dsimp only
        rw [show min (n+1) (j - lo) = 0 from by omega]
        rw [descFrom]
        simp only [List.map_nil]
        rw [Nat.sub_zero]
      · rw [mkHeader_parentHash, if_neg hj0, mkHeader_number,
            u64sub1_eq (by omega) (by omega)]
        rw [getHeader_parent_gen hinj j (s + 1 - j) (by omega) (by omega) (by omega) (by omega)
            g co chh nc]
        dsimp only
        rw [mkHeader_number]
        by_cases hj1 : j - 1 = 0
        · rw [if_pos hj1]
          have e1 : min (n+1) (j - lo) = 1 := by omega
          rw [e1]
          rw [descFrom, descFrom]
          simp only [List.map_cons, List.map_nil]
          have e2 : s + 1 - j + 1 = s + 1 - (j - 1) := by omega
          rw [e2]
        · rw [if_neg hj1]
          have e2 : s + 1 - j + 1 = s + 1 - (j - 1) := by omega
          rw [e2]
          rw [ih (j-1) (by omega) (by omega) g co chh nc]
          dsimp only
          have e3 : min (n+1) (j - lo) = min n (j - 1 - lo) + 1 := by omega
          rw [e3, descFrom]
          simp only [List.map_cons]
          have e4 : j - (min n (j - 1 - lo) + 1) = j - 1 - min n (j - 1 - lo) := by omega
          rw [e4]

/-- Resolving the start header of `GetBlockHashesFromHash` by hash: the
number cache misses, the hash-to-number index resolves `f s` to `s`, the
header cache misses, and the store yields the header — priming both caches. -/
theorem getHeaderByHash_start {f : Nat → Nat} {lo hi : Nat}
    (hinj : ∀ i j, i ≤ hi → j ≤ hi → f i = f j → i = j)
    (s : Nat) (hlos : lo ≤ s) (hshi : s ≤ hi) :
    getHeaderByHash (mkChainFrom f lo hi) (f s)
      = (some (mkHeader f s),
         ⟨mkDBFrom f lo hi, mkHeader f 0, some (mkHeader f hi), f hi,
          walkCacheAux f s 1, [(f s, s)]⟩) := by
  rw [show mkChainFrom f lo hi
      = (⟨mkDBFrom f lo hi, mkHeader f 0, some (mkHeader f hi), f hi, [], []⟩ : HeaderChain)
      from rfl]
  rw [getHeaderByHash, getBlockNumber]
  dsimp only
  rw [alistFind_nil]
  dsimp only
  rw [readHeaderNumber, mkDBFrom_numberIndex,
      find_numList hinj (hi + 1 - lo) lo s (by omega) hlos (by omega)]
  dsimp only
  rw [getHeader]
  dsimp only
  rw [alistFind_nil]
  dsimp only
  rw [readHeader, mkDBFrom_headers, find_hdrList (hi + 1 - lo) lo s hlos (by omega)]
  rfl

/-- C7: on a linearly chained canonical state retaining heights `lo..hi`,
`GetBlockHashesFromHash(f s, max)` returns exactly the hashes of heights
`s-1, s-2, ...` (newest-first, parent hashes of the walk), cut off at `max`
entries, at the genesis (height 0, when `lo = 0`), or at the first height
whose parent is missing from the store (height `lo`, when `lo ≥ 1`); in
particular the result has at most `max` entries and never contains the start
hash itself.  A start hash matching no stored header yields the empty
collection. -/
theorem C7_getBlockHashes (f : Nat → Nat) (lo hi s mx : Nat)
    (hinj : ∀ i, i ≤ hi → ∀ j, j ≤ hi → f i = f j → i = j)
    (hnz : ∀ i, i ≤ hi → f i ≠ 0)
    (hu : hi < u64) (hlos : lo ≤ s) (hshi : s ≤ hi) :
    ((getBlockHashesFromHash (mkChainFrom f lo hi) (f s) mx).1
        = (descFrom (s-1) (min mx (s - lo))).map f)
    ∧ (getBlockHashesFromHash (mkChainFrom f lo hi) (f s) mx).1.length ≤ mx
    ∧ f s ∉ (getBlockHashesFromHash (mkChainFrom f lo hi) (f s) mx).1
    ∧ ∀ x, (∀ i, lo ≤ i → i ≤ hi → x ≠ f i) →
        (getBlockHashesFromHash (mkChainFrom f lo hi) x mx).1 = [] := by
  have hinj2 : ∀ i j, i ≤ hi → j ≤ hi → f i = f j → i = j :=
    fun i j h1 h2 he => hinj i h1 j h2 he
  have hmain : (getBlockHashesFromHash (mkChainFrom f lo hi) (f s) mx).1
      = (descFrom (s-1) (min mx (s - lo))).map f := by
    rw [getBlockHashesFromHash, getHeaderByHash_start hinj2 s hlos hshi]
    dsimp only
    rw [show walkCacheAux f s 1 = walkCacheAux f s (s + 1 - s) from by
      rw [show s + 1 - s = 1 from by omega]]
    rw [hashWalk_desc hinj2 hnz hu hshi mx s hlos (Nat.le_refl s)
        (mkHeader f 0) (some (mkHeader f hi)) (f hi) [(f s, s)]]
  refine ⟨hmain, ?_, ?_, ?_⟩
  · rw [hmain, List.length_map, descFrom_length]
    exact Nat.min_le_left mx (s - lo)
  · rw [hmain]
    intro hmem
    rw [List.mem_map] at hmem
    obtain ⟨i, hi2, he⟩ := hmem
    obtain ⟨hn1, hile⟩ := descFrom_mem hi2
    have hs1 : 1 ≤ s := by omega
    have : i = s := hinj2 i s (by omega) (by omega) he
    omega
  · intro x hx
    rw [show mkChainFrom f lo hi
        = (⟨mkDBFrom f lo hi, mkHeader f 0, some (mkHeader f hi), f hi, [], []⟩ : HeaderChain)
        from rfl]
    rw [getBlockHashesFromHash, getHeaderByHash, getBlockNumber]
    dsimp only
    rw [alistFind_nil]
    dsimp only
    rw [readHeaderNumber, mkDBFrom_numberIndex,
        find_numList_none (hi + 1 - lo) lo x (fun i h1 h2 => hx i h1 (by omega))]

theorem C7_getBlockHashes_witness :
    (((getBlockHashesFromHash (mkChainFrom (fun i => i + 1) 0 3) ((fun i => i + 1) 2) 5).1
        = (descFrom (2-1) (min 5 (2 - 0))).map (fun i => i + 1))
    ∧ (getBlockHashesFromHash (mkChainFrom (fun i => i + 1) 0 3) ((fun i => i + 1) 2) 5).1.length ≤ 5
    ∧ (fun i => i + 1) 2 ∉ (getBlockHashesFromHash (mkChainFrom (fun i => i + 1) 0 3)
        ((fun i => i + 1) 2) 5).1
    ∧ ∀ x, (∀ i, 0 ≤ i → i ≤ 3 → x ≠ (fun i => i + 1) i) →
        (getBlockHashesFromHash (mkChainFrom (fun i => i + 1) 0 3) x 5).1 = []) :=
  C7_getBlockHashes (fun i => i + 1) 0 3 2 5
    (by intro i h1 j h2 he; simp only [] at he; omega)
    (by intro i h; simp)
    (by rw [u64]; omega)
    (by omega) (by omega)
